import Mathlib

/-!
Verification of the extraction-fallback and structure-reconstruction pipeline
of the pdf-to-doc-ai repository (`pdf_to_word_converter.py`).

Text is modelled as `List Char` (the repository's inputs are ASCII).  Python
string methods (`strip`, `isupper`, `startswith`, `split`) and the concrete
`re.sub`/`re.findall` calls used by the source are embedded as executable
functions on `List Char`; every embedded function mirrors one Python function
or statement of the source, named after it.  All recursion is structural (a
fuel parameter equal to the input length replaces the two loops that skip
ahead), so closed instances evaluate by `decide`.
-/

namespace PdfToDoc

/-- ASCII lowercase letter, the `[a-z]` regex class. -/
def isLowerA (c : Char) : Bool := 97 ≤ c.toNat && c.toNat ≤ 122

/-- ASCII uppercase letter, the `[A-Z]` regex class. -/
def isUpperA (c : Char) : Bool := 65 ≤ c.toNat && c.toNat ≤ 90

/-- ASCII letter, the `[a-zA-Z]` regex class. -/
def isAlphaA (c : Char) : Bool := isUpperA c || isLowerA c

/-- ASCII digit, the `\d` regex class. -/
def isDigitA (c : Char) : Bool := 48 ≤ c.toNat && c.toNat ≤ 57

/-- Sentence-ending punctuation, the `[.!?]` regex class. -/
def isSentPunct (c : Char) : Bool := c == '.' || c == '!' || c == '?'

/-- Clause punctuation, the `[,;:]` regex class. -/
def isClausePunct (c : Char) : Bool := c == ',' || c == ';' || c == ':'

/-- A space character (for the `r' +'` collapse rule). -/
def isSpaceChar (c : Char) : Bool := c == ' '

/-- Whitespace stripped by Python `str.strip()` (ASCII subset). -/
def isPySpace (c : Char) : Bool :=
  c == ' ' || c == '\t' || c == '\n' || c == '\r' ||
  c == Char.ofNat 11 || c == Char.ofNat 12

/-- Python `str.strip()`: drop leading and trailing whitespace. -/
def pyStrip (l : List Char) : List Char :=
  ((l.dropWhile isPySpace).reverse.dropWhile isPySpace).reverse

/-- Python `str.isupper()`: at least one cased character and no lowercase one
(ASCII: cased characters are letters). -/
def pyIsUpper (l : List Char) : Bool :=
  l.any isAlphaA && l.all (fun c => !(isLowerA c))

/-- Python `str.startswith(pat)` on character lists. -/
def startsWithL : List Char → List Char → Bool
  | [], _ => true
  | _ :: _, [] => false
  | p :: ps, c :: cs => p == c && startsWithL ps cs

/-- Python `str.endswith(single-char suffix)`. -/
def endsWithChar (c : Char) (l : List Char) : Bool :=
  match l.reverse with
  | [] => false
  | d :: _ => d == c

/-- `re.sub(r'(X)(Y)', r'\1 \2', text)` for two single-character classes:
scan left to right, insert one space inside each non-overlapping match and
resume after it.  Used for patterns 1, 2 and 4 of `_preprocess_spacing` and
for the fixes of `_post_process_spacing`. -/
def subPair (p q : Char → Bool) : List Char → List Char
  | [] => []
  | [a] => [a]
  | a :: b :: rest =>
    if p a && q b then a :: ' ' :: b :: subPair p q rest
    else a :: subPair p q (b :: rest)

/-- `re.findall(r'XY', text).length` for two single-character classes: the
number of non-overlapping matches, scanning left to right.  Used by
`_post_process_spacing` to count suspicious patterns. -/
def countPair (p q : Char → Bool) : List Char → Nat
  | [] => 0
  | [_] => 0
  | a :: b :: rest =>
    if p a && q b then 1 + countPair p q rest
    else countPair p q (b :: rest)

/-- `re.sub(r' +', ' ', text)`: collapse every run of spaces to one space. -/
def collapseSpaces : List Char → List Char
  | [] => []
  | [a] => [a]
  | a :: b :: rest =>
    if a == ' ' && b == ' ' then collapseSpaces (b :: rest)
    else a :: collapseSpaces (b :: rest)

/-- `re.sub(r'([a-z])-\n([a-z])', r'\1\2', text)`: rejoin a word split across
a line break by a trailing hyphen (pattern 6 of `_preprocess_spacing`). -/
def dehyphenate : List Char → List Char
  | a :: '-' :: '\n' :: b :: rest =>
    if isLowerA a && isLowerA b then a :: b :: dehyphenate rest
    else a :: dehyphenate ('-' :: '\n' :: b :: rest)
  | a :: rest => a :: dehyphenate rest
  | [] => []

/-- Case-insensitive literal prefix match (the `re.IGNORECASE` flag of the
merged-word substitutions). -/
def ciStarts : List Char → List Char → Bool
  | [], _ => true
  | _ :: _, [] => false
  | p :: ps, c :: cs => c.toLower == p.toLower && ciStarts ps cs

/-- Worker for `re.sub(literal, rep, text, flags=re.IGNORECASE)`: scan left to
right; on a match emit the replacement and resume after the matched region.
The fuel starts at the text length, which bounds the number of steps. -/
def subLitGo (p0 : Char) (ps : List Char) (rep : List Char) :
    Nat → List Char → List Char
  | _, [] => []
  | 0, l => l
  | fuel + 1, c :: rest =>
    if c.toLower == p0.toLower && ciStarts ps rest then
      rep ++ subLitGo p0 ps rep fuel (rest.drop ps.length)
    else c :: subLitGo p0 ps rep fuel rest

/-- `re.sub(pat, rep, text, flags=re.IGNORECASE)` for a literal pattern. -/
def subLit (pat rep l : List Char) : List Char :=
  match pat with
  | [] => l
  | p0 :: ps => subLitGo p0 ps rep l.length l

/-- The `common_merges` table of `_preprocess_spacing`, in source (dict
insertion) order. -/
def commonMerges : List (List Char × List Char) :=
  [("andthe", "and the"), ("ofthe", "of the"), ("inthe", "in the"),
   ("tothe", "to the"), ("forthe", "for the"), ("withthe", "with the"),
   ("onthe", "on the"), ("atthe", "at the"), ("bythe", "by the"),
   ("fromthe", "from the"), ("thatthe", "that the"), ("thisthe", "this the"),
   ("itis", "it is"), ("thisis", "this is"), ("thereis", "there is"),
   ("therefor", "therefore"), ("however", "however"),
   ("moreover", "moreover"), ("furthermore", "furthermore")
  ].map (fun p => (p.1.data, p.2.data))

/-- The `for merged, separated in common_merges.items()` loop: apply each
case-insensitive substitution in table order. -/
def applyMerges (l : List Char) : List Char :=
  commonMerges.foldl (fun acc pr => subLit pr.1 pr.2 acc) l

/-- `_preprocess_spacing`: the ordered rule chain (camelCase split,
letter/digit splits, merged-word table, punctuation spacing, space collapse,
dehyphenation), exactly in source order. -/
def preprocessSpacing (text : List Char) : List Char :=
  dehyphenate
    (collapseSpaces
      (subPair isClausePunct isAlphaA
        (subPair isSentPunct isUpperA
          (applyMerges
            (subPair isDigitA isAlphaA
              (subPair isAlphaA isDigitA
                (subPair isLowerA isUpperA text)))))))

/-- The `issues_found` count of `_post_process_spacing`: total number of
matches of the five suspicious patterns. -/
def countIssues (l : List Char) : Nat :=
  countPair isLowerA isUpperA l + countPair isAlphaA isDigitA l +
  countPair isDigitA isAlphaA l + countPair isSentPunct isUpperA l +
  countPair isClausePunct isAlphaA l

/-- `_post_process_spacing`: if any suspicious pattern matches, apply the
camelCase, letter/digit and punctuation fixes and collapse spaces; otherwise
return the text unchanged. -/
def postProcessSpacing (text : List Char) : List Char :=
  if 0 < countIssues text then
    collapseSpaces
      (subPair isClausePunct isAlphaA
        (subPair isSentPunct isUpperA
          (subPair isDigitA isAlphaA
            (subPair isAlphaA isDigitA
              (subPair isLowerA isUpperA text)))))
  else text

/-- `process_with_gemini`, with the remote calls abstracted to a list of
per-model outcomes (`some resp` = the model answered `resp`, `none` = it
raised): return the first answer; if every model fails, return the input
text unchanged. -/
def processWithGemini : List (Option (List Char)) → List Char → List Char
  | [], text => text
  | some resp :: _, _ => resp
  | none :: rest, text => processWithGemini rest text

/-- Digit characters of a numeral, for the `f-string` prefixes `f'{i}.'` and
`f'{i}.{j}'`. -/
def natChars (n : Nat) : List Char := Nat.toDigits 10 n

/-- The prefixes `f'{i}.'` for `i in range(1, 21)`. -/
def numberedDotList : List (List Char) :=
  (List.range 20).map (fun k => natChars (k + 1) ++ ['.'])

/-- The prefixes `f'{i}.{j}'` for `i in range(1, 11) for j in range(1, 11)`. -/
def subNumberedList : List (List Char) :=
  (List.range 10).flatMap
    (fun i => (List.range 10).map
      (fun j => natChars (i + 1) ++ '.' :: natChars (j + 1)))

/-- `_detect_heading_level`: the cascaded level heuristics on the stripped
line, in source order (level 1, then 2, then 3, else 0). -/
def detectHeadingLevel (text : List Char) : Nat :=
  let t := pyStrip text
  if (pyIsUpper t && decide (t.length < 60)) ||
     ["CHAPTER", "PART", "SECTION I", "APPENDIX"].any
       (fun p => startsWithL p.data t) then 1
  else if ["Chapter", "Section", "Part"].any (fun p => startsWithL p.data t) ||
          (endsWithChar ':' t && decide (t.length < 50)) ||
          numberedDotList.any (fun p => startsWithL p t) then 2
  else if subNumberedList.any (fun p => startsWithL p t) ||
          ["Introduction", "Conclusion", "Summary", "Overview"].any
            (fun p => startsWithL p.data t) then 3
  else 0

/-- `_is_heading`: the gatekeeper used by `create_word_document`; lines longer
than 100 characters are never headings, otherwise any of the listed cues
makes the line a heading. -/
def isHeading (text : List Char) : Bool :=
  let t := pyStrip text
  if 100 < t.length then false
  else
    (pyIsUpper t && decide (t.length < 60)) ||
    (endsWithChar ':' t && decide (t.length < 50)) ||
    ["CHAPTER", "PART", "SECTION", "APPENDIX", "INTRODUCTION", "CONCLUSION",
     "Chapter", "Part", "Section", "Appendix", "Introduction",
     "Conclusion"].any (fun p => startsWithL p.data t) ||
    numberedDotList.any (fun p => startsWithL p t) ||
    subNumberedList.any (fun p => startsWithL p t) ||
    ["Summary", "Overview", "Abstract", "References", "Bibliography"].any
      (fun p => startsWithL p.data t)

/-- The per-line classification `create_word_document` effectively applies:
heading level clamped to at least 1 for lines the gatekeeper accepts, level 0
(body) otherwise. -/
def classifyLine (l : List Char) : Nat :=
  if isHeading l then max 1 (detectHeadingLevel l) else 0

/-- One structurally classified output unit of `create_word_document`:
an `add_heading` call, an `add_paragraph` with text, or an empty spacer
paragraph. -/
inductive Block where
  | Blank : Block
  | Heading : List Char → Nat → Block
  | Paragraph : List Char → Block
deriving DecidableEq

/-- Python `'\n'.split` of `str.split('\n')`: cut the character list at every
newline (a trailing newline yields a trailing empty line, as in Python). -/
def splitNl : List Char → List (List Char)
  | [] => [[]]
  | '\n' :: rest => [] :: splitNl rest
  | c :: rest =>
    match splitNl rest with
    | [] => [[c]]
    | l :: ls => (c :: l) :: ls

/-- Python `' '.join`. -/
def joinSpace : List (List Char) → List Char
  | [] => []
  | [x] => x
  | x :: y :: rest => x ++ ' ' :: joinSpace (y :: rest)

/-- The inner `while j < len(lines)` loop of `create_word_document`: collect
the stripped texts of the following lines into the current paragraph until a
blank line or a heading line (which is not consumed); return the collected
texts and the unconsumed remainder. -/
def collectPara : List (List Char) → List (List Char) × List (List Char)
  | [] => ([], [])
  | l :: rest =>
    let t := pyStrip l
    if t.isEmpty then ([], l :: rest)
    else if isHeading l then ([], l :: rest)
    else
      let (chunk, rest2) := collectPara rest
      (t :: chunk, rest2)

/-- The second pass of `create_word_document` (the `while i < len(lines)`
loop), emitting one `Block` per `doc.add_*` call.  The fuel starts at the
number of lines, which bounds the number of loop iterations because each
iteration consumes at least one line. -/
def assembleGo : Nat → List (List Char) → List Block
  | 0, _ => []
  | _ + 1, [] => []
  | fuel + 1, l :: rest =>
    let t := pyStrip l
    if t.isEmpty then Block.Blank :: assembleGo fuel rest
    else if isHeading l then
      Block.Heading t (max 1 (detectHeadingLevel l)) :: assembleGo fuel rest
    else
      let (chunk, rest2) := collectPara rest
      Block.Paragraph (joinSpace (t :: chunk)) :: assembleGo fuel rest2

/-- The document structure `create_word_document` builds from the processed
text's lines, as an ordered `Block` sequence (the docx serialization itself
is the external writer collaborator). -/
def assemble (lines : List (List Char)) : List Block :=
  assembleGo lines.length lines

/-- The texts of the non-blank blocks, in order. -/
def blockTexts : List Block → List (List Char)
  | [] => []
  | Block.Blank :: r => blockTexts r
  | Block.Heading t _ :: r => t :: blockTexts r
  | Block.Paragraph t :: r => t :: blockTexts r

/-- The stripped texts of the non-blank input lines, in order. -/
def nonBlankTrims (lines : List (List Char)) : List (List Char) :=
  (lines.map pyStrip).filter (fun t => !t.isEmpty)

/-- One extraction backend attempt: the backend's name paired with its
outcome (`some text` = it returned `text`, possibly blank; `none` = it
raised). -/
def usableOutcome : String × Option (List Char) → Bool
  | (_, some t) => !(pyStrip t).isEmpty
  | (_, none) => false

/-- `extract_text_from_pdf`, with the three backends abstracted to an ordered
list of named outcomes: take the first backend whose text is non-blank after
stripping, record its name and return its text preprocessed; skip failures
and blank results; `none` models the final
`raise Exception("All PDF extraction methods failed")`. -/
def extractTextFromPdf :
    List (String × Option (List Char)) → Option (String × List Char)
  | [] => none
  | (name, some t) :: rest =>
    if (pyStrip t).isEmpty then extractTextFromPdf rest
    else some (name, preprocessSpacing t)
  | (_, none) :: rest => extractTextFromPdf rest

/-- `convert_pdf_to_word` steps 1-5, with extraction backends and rewrite
models abstracted to outcome lists: extract (already preprocessed), re-check
for blank text, rewrite with fallback, post-process, and assemble the block
sequence; `none` models a raised exception (no document written). -/
def convertPdfToWord (backends : List (String × Option (List Char)))
    (models : List (Option (List Char))) : Option (List Block) :=
  match extractTextFromPdf backends with
  | none => none
  | some (_, raw) =>
    if (pyStrip raw).isEmpty then none
    else
      some (assemble (splitNl (postProcessSpacing (processWithGemini models raw))))

/-- Proof instrumentation for the assembler: the same walk as `assembleGo`,
but recording, for each non-blank block, the list of stripped source lines it
was built from (a heading from one line, a paragraph from its collected
lines). -/
def chunksOf : Nat → List (List Char) → List (List (List Char))
  | 0, _ => []
  | _ + 1, [] => []
  | fuel + 1, l :: rest =>
    let t := pyStrip l
    if t.isEmpty then chunksOf fuel rest
    else if isHeading l then [t] :: chunksOf fuel rest
    else
      let (chunk, rest2) := collectPara rest
      (t :: chunk) :: chunksOf fuel rest2

/-- Proof instrumentation: does the character-class pattern `ps` match at the
head of `l`?  Each rule of the spacing normalizer is the replacement of such
a pattern. -/
def startsP : List (Char → Bool) → List Char → Bool
  | [], _ => true
  | _ :: _, [] => false
  | p :: ps, c :: cs => p c && startsP ps cs

/-- Proof instrumentation: does the character-class pattern `ps` match
anywhere in `l` (the regex-search view of the normalizer's rules)? -/
def occursP (ps : List (Char → Bool)) : List Char → Bool
  | [] => startsP ps []
  | c :: rest => startsP ps (c :: rest) || occursP ps rest

/-- The character-class pattern of a case-insensitive literal (one class per
pattern character). -/
def ciOf (pat : List Char) : List (Char → Bool) :=
  pat.map (fun k => fun c => c.toLower == k.toLower)

/-- The character-class pattern of the dehyphenation rule
`([a-z])-\n([a-z])`. -/
def hyphenPattern : List (Char → Bool) :=
  [isLowerA, fun c => c == '-', fun c => c == '\n', isLowerA]

/-! ## Helper lemmas -/

theorem processWithGemini_all_fail :
    ∀ (ms : List (Option (List Char))) (text : List Char),
    (∀ m ∈ ms, m = none) → processWithGemini ms text = text := by
  intro ms
  induction ms with
  | nil => intro text _; rfl
  | cons m rest ih =>
    intro text h
    have hm : m = none := h m (List.mem_cons_self m rest)
    subst hm
    have : ∀ m ∈ rest, m = none := fun x hx => h x (List.mem_cons_of_mem _ hx)
    simpa [processWithGemini] using ih text this

theorem collectPara_mem :
    ∀ (xs : List (List Char)) (y : List Char),
    y ∈ (collectPara xs).2 → y ∈ xs := by
  intro xs
  induction xs with
  | nil => intro y h; simp [collectPara] at h
  | cons l rest ih =>
    intro y h
    by_cases hb : (pyStrip l).isEmpty
    · simpa [collectPara, hb] using h
    · by_cases hh : isHeading l
      · simpa [collectPara, hb, hh] using h
      · simp only [collectPara, hb, hh] at h
        simp only [if_neg, Bool.false_eq_true, if_false] at h
        right
        exact ih y h

theorem collectPara_filter :
    ∀ (xs : List (List Char)),
    (collectPara xs).1 ++ nonBlankTrims (collectPara xs).2 = nonBlankTrims xs := by
  intro xs
  induction xs with
  | nil => simp [collectPara, nonBlankTrims]
  | cons l rest ih =>
    by_cases hb : (pyStrip l).isEmpty
    · simp [collectPara, hb, nonBlankTrims]
    · by_cases hh : isHeading l
      · simp [collectPara, hb, hh, nonBlankTrims]
      · simp only [collectPara, hb, hh, if_neg, Bool.false_eq_true, if_false]
        have : nonBlankTrims (l :: rest) = pyStrip l :: nonBlankTrims rest := by
          simp [nonBlankTrims, hb]
        rw [this, ← ih]
        simp

theorem heading_mem :
    ∀ (fuel : Nat) (lines : List (List Char)) (t : List Char) (lvl : Nat),
    Block.Heading t lvl ∈ assembleGo fuel lines →
    ∃ l ∈ lines, t = pyStrip l ∧ isHeading l = true ∧
      lvl = max 1 (detectHeadingLevel l) := by
  intro fuel
  induction fuel with
  | zero => intro lines t lvl h; simp [assembleGo] at h
  | succ fuel ih =>
    intro lines t lvl h
    match lines with
    | [] => simp [assembleGo] at h
    | l :: rest =>
      by_cases hb : (pyStrip l).isEmpty
      · simp only [assembleGo, hb, if_true] at h
        rcases List.mem_cons.mp h with h1 | h2
        · exact absurd h1 (by simp)
        · obtain ⟨l', hl', rest'⟩ := ih rest t lvl h2
          exact ⟨l', List.mem_cons_of_mem _ hl', rest'⟩
      · by_cases hh : isHeading l
        · simp only [assembleGo, hb, hh, if_true, Bool.false_eq_true, if_false] at h
          rcases List.mem_cons.mp h with h1 | h2
          · refine ⟨l, List.mem_cons_self l rest, ?_⟩
            injection h1 with ht hl
            exact ⟨ht, hh, hl⟩
          · obtain ⟨l', hl', rest'⟩ := ih rest t lvl h2
            exact ⟨l', List.mem_cons_of_mem _ hl', rest'⟩
        · simp only [assembleGo, hb, hh, Bool.false_eq_true, if_false] at h
          rcases List.mem_cons.mp h with h1 | h2
          · exact absurd h1 (by simp)
          · obtain ⟨l', hl', rest'⟩ := ih _ t lvl h2
            refine ⟨l', List.mem_cons_of_mem _ (collectPara_mem rest l' ?_), rest'⟩
            exact hl'

theorem isHeading_false_of_long {line : List Char}
    (h : 100 < (pyStrip line).length) : isHeading line = false := by
  simp only [isHeading]
  rw [if_pos h]

theorem isHeading_length_le {l : List Char} (h : isHeading l = true) :
    (pyStrip l).length ≤ 100 := by
  by_contra hlong
  push_neg at hlong
  rw [isHeading_false_of_long hlong] at h
  exact Bool.false_ne_true h

theorem collectPara_len :
    ∀ xs : List (List Char), ((collectPara xs).2).length ≤ xs.length := by
  intro xs
  induction xs with
  | nil => simp [collectPara]
  | cons l rest ih =>
    by_cases hb : (pyStrip l).isEmpty
    · simp [collectPara, hb]
    · by_cases hh : isHeading l
      · simp [collectPara, hb, hh]
      · simp only [collectPara, hb, hh, Bool.false_eq_true, if_false]
        exact Nat.le_succ_of_le ih

theorem blockTexts_assembleGo :
    ∀ (fuel : Nat) (lines : List (List Char)),
    blockTexts (assembleGo fuel lines) = (chunksOf fuel lines).map joinSpace := by
  intro fuel
  induction fuel with
  | zero => intro lines; simp [assembleGo, chunksOf, blockTexts]
  | succ fuel ih =>
    intro lines
    match lines with
    | [] => simp [assembleGo, chunksOf, blockTexts]
    | l :: rest =>
      by_cases hb : (pyStrip l).isEmpty
      · simp only [assembleGo, chunksOf, hb, if_true, blockTexts]
        exact ih rest
      · by_cases hh : isHeading l
        · simp only [assembleGo, chunksOf, hb, hh, if_true, Bool.false_eq_true,
            if_false, blockTexts, List.map_cons]
          rw [ih rest]
          simp [joinSpace]
        · simp only [assembleGo, chunksOf, hb, hh, Bool.false_eq_true,
            if_false, blockTexts, List.map_cons]
          rw [ih]

theorem chunksOf_join :
    ∀ (fuel : Nat) (lines : List (List Char)), lines.length ≤ fuel →
    (chunksOf fuel lines).flatten = nonBlankTrims lines := by
  intro fuel
  induction fuel with
  | zero =>
    intro lines h
    have : lines = [] := List.length_eq_zero.mp (Nat.le_zero.mp h)
    subst this
    simp [chunksOf, nonBlankTrims]
  | succ fuel ih =>
    intro lines h
    match lines with
    | [] => simp [chunksOf, nonBlankTrims]
    | l :: rest =>
      have hlen : rest.length ≤ fuel := by simpa using h
      by_cases hb : (pyStrip l).isEmpty
      · simp only [chunksOf, hb, if_true]
        rw [ih rest hlen]
        simp [nonBlankTrims, hb]
      · by_cases hh : isHeading l
        · simp only [chunksOf, hb, hh, if_true, Bool.false_eq_true, if_false,
            List.flatten_cons]
          rw [ih rest hlen]
          simp [nonBlankTrims, hb]
        · simp only [chunksOf, hb, hh, Bool.false_eq_true, if_false,
            List.flatten_cons]
          rw [ih _ (Nat.le_trans (collectPara_len rest) hlen)]
          have hfil : nonBlankTrims (l :: rest) = pyStrip l :: nonBlankTrims rest := by
            simp [nonBlankTrims, hb]
          rw [hfil, ← collectPara_filter rest]
          simp

theorem chunksOf_ne_nil :
    ∀ (fuel : Nat) (lines : List (List Char)) (cs : List (List Char)),
    cs ∈ chunksOf fuel lines → cs ≠ [] := by
  intro fuel
  induction fuel with
  | zero => intro lines cs h; simp [chunksOf] at h
  | succ fuel ih =>
    intro lines cs h
    match lines with
    | [] => simp [chunksOf] at h
    | l :: rest =>
      by_cases hb : (pyStrip l).isEmpty
      · simp only [chunksOf, hb, if_true] at h
        exact ih rest cs h
      · by_cases hh : isHeading l
        · simp only [chunksOf, hb, hh, if_true, Bool.false_eq_true, if_false] at h
          rcases List.mem_cons.mp h with h1 | h2
          · subst h1; simp
          · exact ih rest cs h2
        · simp only [chunksOf, hb, hh, Bool.false_eq_true, if_false] at h
          rcases List.mem_cons.mp h with h1 | h2
          · subst h1; simp
          · exact ih _ cs h2

theorem joinSpace_append :
    ∀ (A B : List (List Char)), A ≠ [] → B ≠ [] →
    joinSpace (A ++ B) = joinSpace A ++ ' ' :: joinSpace B := by
  intro A
  induction A with
  | nil => intro B h _; exact absurd rfl h
  | cons x A ih =>
    intro B _ hB
    match A with
    | [] =>
      match B with
      | [] => exact absurd rfl hB
      | y :: B' => simp [joinSpace]
    | z :: A' =>
      have h2 := ih B (by simp) hB
      have e1 : joinSpace (x :: z :: A' ++ B) =
          x ++ ' ' :: joinSpace (z :: A' ++ B) := rfl
      rw [e1, h2]
      simp [joinSpace]

theorem joinSpace_map_join :
    ∀ css : List (List (List Char)), (∀ cs ∈ css, cs ≠ []) →
    joinSpace (css.map joinSpace) = joinSpace css.flatten := by
  intro css
  induction css with
  | nil => intro _; simp [joinSpace]
  | cons cs css ih =>
    intro h
    have hcs : cs ≠ [] := h cs (List.mem_cons_self _ _)
    have hcss : ∀ x ∈ css, x ≠ [] := fun x hx => h x (List.mem_cons_of_mem _ hx)
    match css with
    | [] => simp [joinSpace]
    | d :: css' =>
      have hd : d ≠ [] := hcss d (List.mem_cons_self _ _)
      have hjoin_ne : (d :: css').flatten ≠ [] := by
        simp only [List.flatten_cons]
        intro hcon
        exact hd (List.append_eq_nil.mp hcon).1
      calc joinSpace ((cs :: d :: css').map joinSpace)
          = joinSpace cs ++ ' ' :: joinSpace ((d :: css').map joinSpace) := by
            simp [joinSpace]
        _ = joinSpace cs ++ ' ' :: joinSpace (d :: css').flatten := by
            rw [ih hcss]
        _ = joinSpace (cs ++ (d :: css').flatten) := by
            rw [joinSpace_append cs _ hcs hjoin_ne]
        _ = joinSpace ((cs :: d :: css').flatten) := by
            simp

/-! ## Pattern-occurrence lemmas for the normalizer -/

theorem twoStepInduction {motive : List Char → Prop}
    (h0 : motive []) (h1 : ∀ a, motive [a])
    (hstep : ∀ a b rest, motive rest → motive (b :: rest) →
      motive (a :: b :: rest)) :
    ∀ l, motive l
  | [] => h0
  | [a] => h1 a
  | a :: b :: rest =>
    hstep a b rest (twoStepInduction h0 h1 hstep rest)
      (twoStepInduction h0 h1 hstep (b :: rest))

@[simp] theorem startsP_nil_pat (l : List Char) : startsP [] l = true := by
  cases l <;> rfl

@[simp] theorem startsP_pat_nil (p : Char → Bool) (ps : List (Char → Bool)) :
    startsP (p :: ps) [] = false := rfl

@[simp] theorem startsP_cons_cons (p : Char → Bool) (ps : List (Char → Bool))
    (c : Char) (cs : List Char) :
    startsP (p :: ps) (c :: cs) = (p c && startsP ps cs) := rfl

@[simp] theorem occursP_nil (ps : List (Char → Bool)) :
    occursP ps [] = startsP ps [] := rfl

@[simp] theorem occursP_cons (ps : List (Char → Bool)) (c : Char)
    (cs : List Char) :
    occursP ps (c :: cs) = (startsP ps (c :: cs) || occursP ps cs) := rfl

theorem occursP_head {ps : List (Char → Bool)} {c : Char} {cs : List Char}
    (h : occursP ps (c :: cs) = false) : startsP ps (c :: cs) = false :=
  (Bool.or_eq_false_iff.mp h).1

theorem occursP_tail {ps : List (Char → Bool)} {c : Char} {cs : List Char}
    (h : occursP ps (c :: cs) = false) : occursP ps cs = false :=
  (Bool.or_eq_false_iff.mp h).2

theorem startsP_pair_eq {p q : Char → Bool} {a b : Char} {rest : List Char} :
    startsP [p, q] (a :: b :: rest) = (p a && q b) := by
  simp

theorem occursP_ne_nil_pat {ps : List (Char → Bool)} {l : List Char}
    (h : occursP ps l = false) : ps ≠ [] := by
  intro hps
  subst hps
  cases l <;> simp at h

theorem subPair_headq (p q : Char → Bool) :
    ∀ l : List Char, (subPair p q l).head? = l.head? := by
  intro l
  match l with
  | [] => rfl
  | [a] => rfl
  | a :: b :: rest =>
    simp only [subPair]
    split <;> rfl

theorem collapseSpaces_headq :
    ∀ l : List Char, (collapseSpaces l).head? = l.head? := by
  intro l
  induction l using twoStepInduction with
  | h0 => rfl
  | h1 a => rfl
  | hstep a b rest ih1 ih2 =>
    simp only [collapseSpaces]
    split
    · rename_i hcond
      obtain ⟨ha, hb⟩ := (Bool.and_eq_true _ _).mp hcond
      rw [ih2]
      simp [eq_of_beq ha, eq_of_beq hb]
    · rfl

theorem subPair_eq_self (p q : Char → Bool) :
    ∀ l : List Char, occursP [p, q] l = false → subPair p q l = l := by
  intro l
  induction l using twoStepInduction with
  | h0 => intro _; rfl
  | h1 a => intro _; rfl
  | hstep a b rest ih1 ih2 =>
    intro h
    have hab : (p a && q b) = false := by
      have := occursP_head h
      rwa [startsP_pair_eq] at this
    simp only [subPair, hab, Bool.false_eq_true, if_false]
    rw [ih2 (occursP_tail h)]

theorem startsP_subPair (p q : Char → Bool) :
    ∀ (l : List Char) (ps : List (Char → Bool)),
    (∀ pr ∈ ps, pr ' ' = false) →
    startsP ps l = false → startsP ps (subPair p q l) = false := by
  intro l
  induction l using twoStepInduction with
  | h0 => intro ps _ h; exact h
  | h1 a => intro ps _ h; exact h
  | hstep a b rest ih1 ih2 =>
    intro ps hsp h
    match ps with
    | [] => simp at h
    | pr :: ps' =>
      simp only [subPair]
      split
      · cases hpa : pr a with
        | false => simp [hpa]
        | true =>
          match ps' with
          | [] =>
            rw [startsP_cons_cons, hpa] at h
            simp at h
          | pr' :: ps'' =>
            have hq' : pr' ' ' = false :=
              hsp pr' (List.mem_cons_of_mem _ (List.mem_cons_self _ _))
            simp [hpa, hq']
      · cases hpa : pr a with
        | false => simp [hpa]
        | true =>
          rw [startsP_cons_cons, hpa, Bool.true_and] at h
          have := ih2 ps' (fun x hx => hsp x (List.mem_cons_of_mem _ hx)) h
          simp [hpa, this]

theorem occursP_subPair (p q : Char → Bool) (ps : List (Char → Bool))
    (hsp : ∀ pr ∈ ps, pr ' ' = false) :
    ∀ l : List Char,
    occursP ps l = false → occursP ps (subPair p q l) = false := by
  intro l
  induction l using twoStepInduction with
  | h0 => intro h; exact h
  | h1 a => intro h; exact h
  | hstep a b rest ih1 ih2 =>
    intro h
    have h1' : startsP ps (a :: b :: rest) = false := occursP_head h
    have h2' : startsP ps (b :: rest) = false := occursP_head (occursP_tail h)
    have h3' : occursP ps rest = false := occursP_tail (occursP_tail h)
    match ps with
    | [] => exact absurd rfl (occursP_ne_nil_pat h)
    | pr :: ps' =>
      have hprsp : pr ' ' = false := hsp pr (List.mem_cons_self _ _)
      have hsp' : ∀ x ∈ ps', x ' ' = false :=
        fun x hx => hsp x (List.mem_cons_of_mem _ hx)
      simp only [subPair]
      split
      · simp only [occursP_cons, Bool.or_eq_false_iff]
        refine ⟨?_, ?_, ?_, ih1 h3'⟩
        · cases hpa : pr a with
          | false => simp [hpa]
          | true =>
            match ps' with
            | [] =>
              rw [startsP_cons_cons, hpa] at h1'
              simp at h1'
            | pr' :: ps'' =>
              have hq' : pr' ' ' = false := hsp' pr' (List.mem_cons_self _ _)
              simp [hpa, hq']
        · simp [hprsp]
        · cases hpb : pr b with
          | false => simp [hpb]
          | true =>
            rw [startsP_cons_cons, hpb, Bool.true_and] at h2'
            have := startsP_subPair p q rest ps' hsp' h2'
            simp [hpb, this]
      · simp only [occursP_cons, Bool.or_eq_false_iff]
        refine ⟨?_, ih2 (Bool.or_eq_false_iff.mpr ⟨h2', h3'⟩)⟩
        cases hpa : pr a with
        | false => simp [hpa]
        | true =>
          rw [startsP_cons_cons, hpa, Bool.true_and] at h1'
          have := startsP_subPair p q (b :: rest) ps' hsp' h1'
          simp [hpa, this]

theorem subPair_no_self (p q : Char → Bool) (hp : p ' ' = false)
    (hq : q ' ' = false) (hdisj : ∀ c, q c = true → p c = false) :
    ∀ l : List Char, occursP [p, q] (subPair p q l) = false := by
  intro l
  induction l using twoStepInduction with
  | h0 => simp [subPair]
  | h1 a => simp [subPair]
  | hstep a b rest ih1 ih2 =>
    simp only [subPair]
    split
    · rename_i hcond
      have hqb : q b = true := ((Bool.and_eq_true _ _).mp hcond).2
      have hpb : p b = false := hdisj b hqb
      simp only [occursP_cons, Bool.or_eq_false_iff]
      refine ⟨?_, ?_, ?_, ih1⟩
      · simp [hq]
      · simp [hp]
      · simp [hpb]
    · rename_i hcond
      have hcond' : (p a && q b) = false := Bool.eq_false_iff.mpr hcond
      simp only [occursP_cons, Bool.or_eq_false_iff]
      refine ⟨?_, ih2⟩
      cases hS : subPair p q (b :: rest) with
      | nil => simp
      | cons s0 S' =>
        have hs0 : s0 = b := by
          have hh := subPair_headq p q (b :: rest)
          rw [hS] at hh
          simpa using hh
        subst hs0
        rw [startsP_pair_eq]
        exact hcond'

theorem collapseSpaces_eq_self :
    ∀ l : List Char,
    occursP [isSpaceChar, isSpaceChar] l = false → collapseSpaces l = l := by
  intro l
  induction l using twoStepInduction with
  | h0 => intro _; rfl
  | h1 a => intro _; rfl
  | hstep a b rest ih1 ih2 =>
    intro h
    have hab : (isSpaceChar a && isSpaceChar b) = false := by
      have := occursP_head h
      rwa [startsP_pair_eq] at this
    have hab' : ((a == ' ') && (b == ' ')) = false := hab
    simp only [collapseSpaces, hab', Bool.false_eq_true, if_false]
    rw [ih2 (occursP_tail h)]

theorem collapseSpaces_no_double :
    ∀ l : List Char,
    occursP [isSpaceChar, isSpaceChar] (collapseSpaces l) = false := by
  intro l
  induction l using twoStepInduction with
  | h0 => simp [collapseSpaces]
  | h1 a => simp [collapseSpaces]
  | hstep a b rest ih1 ih2 =>
    simp only [collapseSpaces]
    split
    · exact ih2
    · rename_i hcond
      have hcond' : ((a == ' ') && (b == ' ')) = false := Bool.eq_false_iff.mpr hcond
      simp only [occursP_cons, Bool.or_eq_false_iff]
      refine ⟨?_, ih2⟩
      cases hS : collapseSpaces (b :: rest) with
      | nil => simp
      | cons s0 S' =>
        have hs0 : s0 = b := by
          have hh := collapseSpaces_headq (b :: rest)
          rw [hS] at hh
          simpa using hh
        subst hs0
        rw [startsP_pair_eq]
        exact hcond'

theorem startsP_collapseSpaces :
    ∀ (l : List Char) (ps : List (Char → Bool)),
    (∀ pr ∈ ps, pr ' ' = false) →
    startsP ps l = false → startsP ps (collapseSpaces l) = false := by
  intro l
  induction l using twoStepInduction with
  | h0 => intro ps _ h; exact h
  | h1 a => intro ps _ h; exact h
  | hstep a b rest ih1 ih2 =>
    intro ps hsp h
    match ps with
    | [] => simp at h
    | pr :: ps' =>
      simp only [collapseSpaces]
      split
      · rename_i hcond
        have hb : b = ' ' := eq_of_beq ((Bool.and_eq_true _ _).mp hcond).2
        apply ih2 (pr :: ps') hsp
        rw [startsP_cons_cons, hb]
        simp [hsp pr (List.mem_cons_self _ _)]
      · cases hpa : pr a with
        | false => simp [hpa]
        | true =>
          rw [startsP_cons_cons, hpa, Bool.true_and] at h
          have := ih2 ps' (fun x hx => hsp x (List.mem_cons_of_mem _ hx)) h
          simp [hpa, this]

theorem occursP_collapseSpaces (ps : List (Char → Bool))
    (hsp : ∀ pr ∈ ps, pr ' ' = false) :
    ∀ l : List Char,
    occursP ps l = false → occursP ps (collapseSpaces l) = false := by
  intro l
  induction l using twoStepInduction with
  | h0 => intro h; exact h
  | h1 a => intro h; exact h
  | hstep a b rest ih1 ih2 =>
    intro h
    have h1' : startsP ps (a :: b :: rest) = false := occursP_head h
    have htl : occursP ps (b :: rest) = false := occursP_tail h
    simp only [collapseSpaces]
    split
    · exact ih2 htl
    · simp only [occursP_cons, Bool.or_eq_false_iff]
      refine ⟨?_, ih2 htl⟩
      match ps with
      | [] => exact absurd rfl (occursP_ne_nil_pat h)
      | pr :: ps' =>
        cases hpa : pr a with
        | false => simp [hpa]
        | true =>
          rw [startsP_cons_cons, hpa, Bool.true_and] at h1'
          have := startsP_collapseSpaces (b :: rest) ps'
            (fun x hx => hsp x (List.mem_cons_of_mem _ hx)) h1'
          simp [hpa, this]

theorem ciStarts_eq_startsP :
    ∀ (ps : List Char) (l : List Char),
    ciStarts ps l = startsP (ciOf ps) l := by
  intro ps
  induction ps with
  | nil => intro l; cases l <;> rfl
  | cons p ps ih =>
    intro l
    cases l with
    | nil => rfl
    | cons c cs =>
      simp only [ciStarts, ciOf, List.map_cons, startsP_cons_cons]
      rw [ih cs]
      rfl

theorem subLitGo_eq_self (p0 : Char) (ps rep : List Char) :
    ∀ (l : List Char) (fuel : Nat),
    occursP (ciOf (p0 :: ps)) l = false → subLitGo p0 ps rep fuel l = l := by
  intro l
  induction l with
  | nil => intro fuel _; cases fuel <;> rfl
  | cons c rest ih =>
    intro fuel h
    have h1' := occursP_head h
    have h2' := occursP_tail h
    cases fuel with
    | zero => rfl
    | succ fuel =>
      have hcond : (c.toLower == p0.toLower && ciStarts ps rest) = false := by
        rw [ciStarts_eq_startsP]
        simpa [ciOf] using h1'
      simp only [subLitGo, hcond, Bool.false_eq_true, if_false]
      rw [ih fuel h2']

theorem subLit_eq_self (pat rep : List Char) (l : List Char)
    (h : occursP (ciOf pat) l = false) : subLit pat rep l = l := by
  match pat with
  | [] => rfl
  | p0 :: ps => exact subLitGo_eq_self p0 ps rep l l.length h

theorem applyMerges_eq_self (l : List Char)
    (h : ∀ pr ∈ commonMerges, occursP (ciOf pr.1) l = false) :
    applyMerges l = l := by
  have general : ∀ (tbl : List (List Char × List Char)) (x : List Char),
      (∀ pr ∈ tbl, occursP (ciOf pr.1) x = false) →
      tbl.foldl (fun acc pr => subLit pr.1 pr.2 acc) x = x := by
    intro tbl
    induction tbl with
    | nil => intro x _; rfl
    | cons pr tbl ih =>
      intro x hx
      have h0 : subLit pr.1 pr.2 x = x :=
        subLit_eq_self pr.1 pr.2 x (hx pr (List.mem_cons_self _ _))
      simp only [List.foldl_cons, h0]
      exact ih x (fun y hy => hx y (List.mem_cons_of_mem _ hy))
  exact general commonMerges l h

theorem dehyphenate_cons_of_no_match (a : Char) (rest : List Char)
    (h : startsP hyphenPattern (a :: rest) = false) :
    dehyphenate (a :: rest) = a :: dehyphenate rest := by
  rw [dehyphenate.eq_def]
  split
  · rename_i a' b' rest' heq
    injection heq with e1 e2
    subst e1
    subst e2
    have hcond : (isLowerA a && isLowerA b') = false := by
      simpa [hyphenPattern] using h
    rw [if_neg (by simp [hcond])]
  · rename_i a' rest' hnm heq
    injection heq with e1 e2
    subst e1
    subst e2
    rfl
  · rename_i hnm heq
    exact absurd heq (List.cons_ne_nil a rest)

theorem dehyphenate_eq_self :
    ∀ l : List Char, occursP hyphenPattern l = false → dehyphenate l = l := by
  intro l
  induction l with
  | nil => intro _; rfl
  | cons a rest ih =>
    intro h
    rw [dehyphenate_cons_of_no_match a rest (occursP_head h), ih (occursP_tail h)]

theorem pair_space_free (p q : Char → Bool) (hp : p ' ' = false)
    (hq : q ' ' = false) :
    ∀ pr ∈ ([p, q] : List (Char → Bool)), pr ' ' = false := by
  intro pr hpr
  rcases List.mem_cons.mp hpr with rfl | h2
  · exact hp
  · rcases List.mem_cons.mp h2 with rfl | h3
    · exact hq
    · simp at h3

theorem ciOf_space_free (pat : List Char)
    (hpat : ∀ k ∈ pat, k.toLower ≠ ' ') :
    ∀ pr ∈ ciOf pat, pr ' ' = false := by
  intro pr hpr
  simp only [ciOf, List.mem_map] at hpr
  obtain ⟨k, hk, rfl⟩ := hpr
  show (Char.toLower ' ' == k.toLower) = false
  have h1 : Char.toLower ' ' = ' ' := by decide
  rw [h1]
  exact beq_eq_false_iff_ne.mpr (fun he => hpat k hk he.symm)

theorem commonMerges_space_free :
    ∀ pr ∈ commonMerges, ∀ q ∈ ciOf pr.1, q ' ' = false := by
  intro pr hpr
  apply ciOf_space_free
  have hall : ∀ x ∈ commonMerges, ∀ k ∈ x.1, k.toLower ≠ ' ' := by decide
  exact hall pr hpr

theorem hyphenPattern_space_free : ∀ pr ∈ hyphenPattern, pr ' ' = false := by
  intro pr hpr
  simp only [hyphenPattern, List.mem_cons, List.not_mem_nil, or_false] at hpr
  rcases hpr with rfl | rfl | rfl | rfl <;> decide

theorem upper_not_lower : ∀ c : Char, isUpperA c = true → isLowerA c = false := by
  intro c h
  simp only [isUpperA, Bool.and_eq_true, decide_eq_true_eq] at h
  simp only [isLowerA, Bool.and_eq_false_iff, decide_eq_false_iff_not]
  omega

theorem digit_not_alpha : ∀ c : Char, isDigitA c = true → isAlphaA c = false := by
  intro c h
  simp only [isDigitA, Bool.and_eq_true, decide_eq_true_eq] at h
  simp only [isAlphaA, isUpperA, isLowerA, Bool.or_eq_false_iff,
    Bool.and_eq_false_iff, decide_eq_false_iff_not]
  omega

theorem alpha_not_digit : ∀ c : Char, isAlphaA c = true → isDigitA c = false := by
  intro c h
  simp only [isAlphaA, isUpperA, isLowerA, Bool.or_eq_true, Bool.and_eq_true,
    decide_eq_true_eq] at h
  simp only [isDigitA, Bool.and_eq_false_iff, decide_eq_false_iff_not]
  omega

theorem upper_not_sent : ∀ c : Char, isUpperA c = true → isSentPunct c = false := by
  intro c h
  simp only [isSentPunct, Bool.or_eq_false_iff, beq_eq_false_iff_ne]
  refine ⟨⟨?_, ?_⟩, ?_⟩ <;> (rintro rfl; exact absurd h (by decide))

theorem alpha_not_clause : ∀ c : Char, isAlphaA c = true →
    isClausePunct c = false := by
  intro c h
  simp only [isClausePunct, Bool.or_eq_false_iff, beq_eq_false_iff_ne]
  refine ⟨⟨?_, ?_⟩, ?_⟩ <;> (rintro rfl; exact absurd h (by decide))

/-! ## Claim theorems -/

/-- C6: concatenating the assembler's non-blank block texts (with the single
spaces the paragraph join inserts) reproduces exactly the stripped non-blank
input lines in order — no line is reordered, duplicated or lost. -/
theorem c6_assembler_preserves_line_order :
    ∀ lines : List (List Char),
    joinSpace (blockTexts (assemble lines)) = joinSpace (nonBlankTrims lines) := by
  intro lines
  rw [assemble, blockTexts_assembleGo,
    joinSpace_map_join _ (chunksOf_ne_nil lines.length lines),
    chunksOf_join lines.length lines (Nat.le_refl _)]

/-- C2 (code_bug evaluation): `_preprocess_spacing` leaves
"thequickbrownfox" unchanged and turns "andtheresults" into
"and theresults" (not "and the results"); only the "word.Another" example is
repaired as the spec and the repository's own test expectations state. -/
theorem c2_merge_repair_examples_eval :
    preprocessSpacing "thequickbrownfox".data = "thequickbrownfox".data ∧
    preprocessSpacing "andtheresults".data = "and theresults".data ∧
    preprocessSpacing "word.Another".data = "word. Another".data := by
  decide

/-- C3 counterexample: the heading classifier does not give the spec's level
3 on "1.2 Background"; the level-2 numbered-prefix rule `N.` matches first. -/
theorem c3_sub_numbering_not_level3 :
    detectHeadingLevel "1.2 Background".data ≠ 3 := by
  decide

/-- C3 amended: `classify("CHAPTER ONE") = 1` and
`classify("1.2 Background") = 2` — an `N.M` line is caught by the level-2
`N.` prefix rule before the level-3 sub-numbering rule can apply. -/
theorem c3_heading_examples_amended :
    detectHeadingLevel "CHAPTER ONE".data = 1 ∧
    detectHeadingLevel "1.2 Background".data = 2 := by
  decide

/-- C4 counterexample: the assembler does not produce the spec's exact block
list on the spec's example lines (it emits `Heading("SECTION:", 1)`, not
level 2, because the all-caps level-1 rule fires before the colon rule). -/
theorem c4_assembler_example_ne_spec :
    assemble (["TITLE", "", "Para one.", "Para two continues.", "",
               "SECTION:", "Body."].map String.data) ≠
      [Block.Heading "TITLE".data 1, Block.Blank,
       Block.Paragraph "Para one. Para two continues.".data, Block.Blank,
       Block.Heading "SECTION:".data 2, Block.Paragraph "Body.".data] := by
  decide

/-- C4 amended: the spec's example line sequence yields exactly the claimed
blocks except that "SECTION:" becomes a level-1 heading (it is all-uppercase,
so the level-1 rule wins over the trailing-colon level-2 rule). -/
theorem c4_assembler_example_amended :
    assemble (["TITLE", "", "Para one.", "Para two continues.", "",
               "SECTION:", "Body."].map String.data) =
      [Block.Heading "TITLE".data 1, Block.Blank,
       Block.Paragraph "Para one. Para two continues.".data, Block.Blank,
       Block.Heading "SECTION:".data 1, Block.Paragraph "Body.".data] := by
  decide

/-- C5: the extraction coordinator returns the first backend outcome that is
non-blank after stripping, tagged with that backend's name (and preprocessed),
independently of every later backend; it fails with the `NoUsableText`
exception exactly when every backend fails or returns blank text; and on that
failure the whole conversion aborts with no document produced. -/
theorem c5_extraction_coordinator_contract :
    (∀ (bs1 : List (String × Option (List Char))) (n : String)
       (t : List Char) (bs2 : List (String × Option (List Char))),
       (∀ b ∈ bs1, usableOutcome b = false) → (pyStrip t).isEmpty = false →
       extractTextFromPdf (bs1 ++ (n, some t) :: bs2) =
         some (n, preprocessSpacing t)) ∧
    (∀ bs, extractTextFromPdf bs = none ↔ ∀ b ∈ bs, usableOutcome b = false) ∧
    (∀ bs ms, extractTextFromPdf bs = none → convertPdfToWord bs ms = none) := by
  refine ⟨?_, ?_, ?_⟩
  · intro bs1
    induction bs1 with
    | nil =>
      intro n t _ _ hblank
      simp [extractTextFromPdf, hblank]
    | cons b rest ih =>
      intro n t bs2 hall hblank
      have hb : usableOutcome b = false := hall b (List.mem_cons_self b rest)
      have hrest : ∀ x ∈ rest, usableOutcome x = false :=
        fun x hx => hall x (List.mem_cons_of_mem _ hx)
      match b with
      | (nm, none) =>
        simpa [extractTextFromPdf] using ih n t bs2 hrest hblank
      | (nm, some u) =>
        have hu : (pyStrip u).isEmpty = true := by
          simpa [usableOutcome] using hb
        simpa [extractTextFromPdf, hu] using ih n t bs2 hrest hblank
  · intro bs
    induction bs with
    | nil => simp [extractTextFromPdf]
    | cons b rest ih =>
      match b with
      | (nm, none) =>
        simp only [extractTextFromPdf]
        rw [ih]
        constructor
        · intro h x hx
          rcases List.mem_cons.mp hx with h1 | h2
          · subst h1; rfl
          · exact h x h2
        · intro h x hx
          exact h x (List.mem_cons_of_mem _ hx)
      | (nm, some u) =>
        by_cases hu : (pyStrip u).isEmpty
        · simp only [extractTextFromPdf, hu, if_true]
          rw [ih]
          constructor
          · intro h x hx
            rcases List.mem_cons.mp hx with h1 | h2
            · subst h1; simp [usableOutcome, hu]
            · exact h x h2
          · intro h x hx
            exact h x (List.mem_cons_of_mem _ hx)
        · simp only [extractTextFromPdf, hu, Bool.false_eq_true, if_false]
          constructor
          · intro h; exact absurd h (by simp)
          · intro h
            have := h (nm, some u) (List.mem_cons_self _ rest)
            simp [usableOutcome, hu] at this
  · intro bs ms h
    simp [convertPdfToWord, h]

/-- C5 witness: with pdfplumber raising, PyMuPDF returning blank text and
PyPDF2 returning "Hello", the coordinator returns "Hello" (preprocessed)
tagged "PyPDF2", regardless of a fourth backend; an all-failing list yields
the failure, and then the conversion yields no document. -/
theorem c5_witness :
    extractTextFromPdf
      [("pdfplumber", none), ("PyMuPDF", some "   ".data),
       ("PyPDF2", some "Hello".data), ("ghost", some "IGNORED".data)] =
      some ("PyPDF2", preprocessSpacing "Hello".data) ∧
    extractTextFromPdf [("pdfplumber", none), ("PyMuPDF", some "  ".data)] =
      none ∧
    convertPdfToWord [("pdfplumber", none), ("PyMuPDF", some "  ".data)] [] =
      none := by
  refine ⟨?_, ?_, ?_⟩
  · exact c5_extraction_coordinator_contract.1
      [("pdfplumber", none), ("PyMuPDF", some "   ".data)] "PyPDF2"
      "Hello".data [("ghost", some "IGNORED".data)] (by decide) (by decide)
  · exact (c5_extraction_coordinator_contract.2.1 _).mpr (by decide)
  · exact c5_extraction_coordinator_contract.2.2 _ _
      ((c5_extraction_coordinator_contract.2.1 _).mpr (by decide))

/-- C7: a line whose stripped text exceeds 100 characters is classified as
body (level 0) regardless of any other cue, and every heading block the
assembler emits has text of at most 100 characters, so such a line is never
emitted as a heading. -/
theorem c7_long_lines_are_body :
    (∀ line : List Char, 100 < (pyStrip line).length → classifyLine line = 0) ∧
    (∀ (lines : List (List Char)) (t : List Char) (lvl : Nat),
       Block.Heading t lvl ∈ assemble lines → t.length ≤ 100) := by
  constructor
  · intro line h
    simp [classifyLine, isHeading_false_of_long h]
  · intro lines t lvl h
    obtain ⟨l, _, ht, hhead, _⟩ := heading_mem lines.length lines t lvl h
    subst ht
    exact isHeading_length_le hhead

/-- C7 witness: a 101-character line is classified 0 even though it is
all-uppercase (a level-1 cue), and a concrete emitted heading obeys the
length bound. -/
theorem c7_witness :
    100 < (pyStrip (List.replicate 101 'A')).length ∧
    classifyLine (List.replicate 101 'A') = 0 ∧
    ("TITLE".data).length ≤ 100 := by
  refine ⟨by decide, c7_long_lines_are_body.1 _ (by decide), ?_⟩
  exact c7_long_lines_are_body.2 ["TITLE".data] "TITLE".data 1 (by decide)

/-- C8: if every configured rewrite model fails, `process_with_gemini`
returns its input unchanged, and the conversion completes with exactly the
block sequence derived from the pre-rewrite normalized text (post-processed
and assembled), rather than aborting or emitting a partial result. -/
theorem c8_rewrite_graceful_degradation :
    ∀ (ms : List (Option (List Char)))
      (bs : List (String × Option (List Char))) (n : String) (raw : List Char),
    (∀ m ∈ ms, m = none) → extractTextFromPdf bs = some (n, raw) →
    (pyStrip raw).isEmpty = false →
    processWithGemini ms raw = raw ∧
    convertPdfToWord bs ms =
      some (assemble (splitNl (postProcessSpacing raw))) := by
  intro ms bs n raw hms hbs hraw
  have h1 : processWithGemini ms raw = raw := processWithGemini_all_fail ms raw hms
  refine ⟨h1, ?_⟩
  simp [convertPdfToWord, hbs, hraw, h1]

/-- C8 witness: with one working backend and two failing rewrite models, the
rewrite step passes the normalized text through and the conversion produces
the block sequence of the normalized text. -/
theorem c8_witness :
    processWithGemini [none, none] (preprocessSpacing "Hello world".data) =
      preprocessSpacing "Hello world".data ∧
    convertPdfToWord [("pdfplumber", some "Hello world".data)] [none, none] =
      some (assemble (splitNl
        (postProcessSpacing (preprocessSpacing "Hello world".data)))) := by
  exact c8_rewrite_graceful_degradation [none, none]
    [("pdfplumber", some "Hello world".data)] "pdfplumber"
    (preprocessSpacing "Hello world".data) (by decide) (by decide) (by decide)

/-- C9 counterexample: the post-rewrite pass is not the same function as the
pre-rewrite pass — on "andthe" the pre-pass applies the merged-word table
("and the") while the post-pass, finding no suspicious pattern, returns the
text unchanged. -/
theorem c9_post_ne_pre :
    postProcessSpacing "andthe".data ≠ preprocessSpacing "andthe".data := by
  decide

/-- C9 amended: the post-rewrite pass reuses only the camelCase, letter/digit
and punctuation patterns of the pre-rewrite pass plus space collapsing
(omitting the merged-word table and dehyphenation), and only when its
suspicious-pattern count is positive; with a zero count the text passes
through unchanged. -/
theorem c9_post_pass_amended :
    ∀ T : List Char,
    (countIssues T = 0 → postProcessSpacing T = T) ∧
    (0 < countIssues T → postProcessSpacing T =
      collapseSpaces
        (subPair isClausePunct isAlphaA
          (subPair isSentPunct isUpperA
            (subPair isDigitA isAlphaA
              (subPair isAlphaA isDigitA
                (subPair isLowerA isUpperA T)))))) := by
  intro T
  constructor
  · intro h; simp [postProcessSpacing, h]
  · intro h; simp [postProcessSpacing, h]

/-- C9 witness: "andthe" has no suspicious pattern and passes through the
post-pass unchanged. -/
theorem c9_witness :
    countIssues "andthe".data = 0 ∧
    postProcessSpacing "andthe".data = "andthe".data :=
  ⟨by decide, (c9_post_pass_amended "andthe".data).1 (by decide)⟩

/-- C10: every heading block the assembler emits has level at least 1 (the
`max(1, level)` clamp), and a line such as "Abstract" that the gatekeeper
accepts but the level function maps to 0 is emitted as a level-1 heading. -/
theorem c10_headings_have_positive_level :
    (∀ (lines : List (List Char)) (t : List Char) (lvl : Nat),
       Block.Heading t lvl ∈ assemble lines → 1 ≤ lvl) ∧
    isHeading "Abstract".data = true ∧
    detectHeadingLevel "Abstract".data = 0 ∧
    assemble ["Abstract".data] = [Block.Heading "Abstract".data 1] := by
  refine ⟨?_, by decide, by decide, by decide⟩
  intro lines t lvl h
  obtain ⟨l, _, _, _, hlvl⟩ := heading_mem lines.length lines t lvl h
  subst hlvl
  exact Nat.le_max_left 1 _

/-- C10 witness: the invariant applied to the concrete "Abstract" document. -/
theorem c10_witness : 1 ≤ 1 :=
  c10_headings_have_positive_level.1 ["Abstract".data] "Abstract".data 1
    (by decide)

/-- C1 counterexample: the normalizer is not idempotent — the table entry
`therefor -> therefore` re-matches its own output, so normalizing "therefor"
twice gives "thereforee" while once gives "therefore". -/
theorem c1_normalize_not_idempotent :
    preprocessSpacing (preprocessSpacing "therefor".data) ≠
      preprocessSpacing "therefor".data := by
  decide

/-- C1 amended: the normalizer is idempotent on every text in which no
merged-word-table pattern occurs (case-insensitively) and no
lowercase-hyphen-newline-lowercase split occurs; the counterexample
"therefor" shows the restriction on table patterns is necessary. -/
theorem c1_normalize_idempotent_of_no_table_no_hyphen :
    ∀ T : List Char,
    (∀ pr ∈ commonMerges, occursP (ciOf pr.1) T = false) →
    occursP hyphenPattern T = false →
    preprocessSpacing (preprocessSpacing T) = preprocessSpacing T := by
  intro T hTab hHyph
  have sfLU : ∀ pr ∈ ([isLowerA, isUpperA] : List (Char → Bool)), pr ' ' = false :=
    pair_space_free _ _ (by decide) (by decide)
  have sfAD : ∀ pr ∈ ([isAlphaA, isDigitA] : List (Char → Bool)), pr ' ' = false :=
    pair_space_free _ _ (by decide) (by decide)
  have sfDA : ∀ pr ∈ ([isDigitA, isAlphaA] : List (Char → Bool)), pr ' ' = false :=
    pair_space_free _ _ (by decide) (by decide)
  have sfSU : ∀ pr ∈ ([isSentPunct, isUpperA] : List (Char → Bool)), pr ' ' = false :=
    pair_space_free _ _ (by decide) (by decide)
  have sfCA : ∀ pr ∈ ([isClausePunct, isAlphaA] : List (Char → Bool)), pr ' ' = false :=
    pair_space_free _ _ (by decide) (by decide)
  -- the merged-word table never fires: absence of its patterns is preserved
  -- through the three space-inserting rules that run before it
  have htab3 : ∀ pr ∈ commonMerges, occursP (ciOf pr.1)
      (subPair isDigitA isAlphaA (subPair isAlphaA isDigitA
        (subPair isLowerA isUpperA T))) = false := by
    intro pr hpr
    exact occursP_subPair _ _ _ (commonMerges_space_free pr hpr) _
      (occursP_subPair _ _ _ (commonMerges_space_free pr hpr) _
        (occursP_subPair _ _ _ (commonMerges_space_free pr hpr) _ (hTab pr hpr)))
  have hm : applyMerges (subPair isDigitA isAlphaA (subPair isAlphaA isDigitA
      (subPair isLowerA isUpperA T))) =
      subPair isDigitA isAlphaA (subPair isAlphaA isDigitA
        (subPair isLowerA isUpperA T)) :=
    applyMerges_eq_self _ htab3
  -- hyphen-pattern absence is preserved through the whole first pass
  have hHyR : occursP hyphenPattern
      (collapseSpaces (subPair isClausePunct isAlphaA
        (subPair isSentPunct isUpperA (subPair isDigitA isAlphaA
          (subPair isAlphaA isDigitA (subPair isLowerA isUpperA T)))))) = false :=
    occursP_collapseSpaces _ hyphenPattern_space_free _
      (occursP_subPair _ _ _ hyphenPattern_space_free _
        (occursP_subPair _ _ _ hyphenPattern_space_free _
          (occursP_subPair _ _ _ hyphenPattern_space_free _
            (occursP_subPair _ _ _ hyphenPattern_space_free _
              (occursP_subPair _ _ _ hyphenPattern_space_free _ hHyph)))))
  -- hence the first pass equals the merge-free, hyphen-free chain
  have hR : preprocessSpacing T =
      collapseSpaces (subPair isClausePunct isAlphaA
        (subPair isSentPunct isUpperA (subPair isDigitA isAlphaA
          (subPair isAlphaA isDigitA (subPair isLowerA isUpperA T))))) := by
    rw [preprocessSpacing, hm, dehyphenate_eq_self _ hHyR]
  -- every rule's pattern is absent from the first pass's output
  have f1 : occursP [isLowerA, isUpperA]
      (collapseSpaces (subPair isClausePunct isAlphaA
        (subPair isSentPunct isUpperA (subPair isDigitA isAlphaA
          (subPair isAlphaA isDigitA (subPair isLowerA isUpperA T)))))) = false :=
    occursP_collapseSpaces _ sfLU _
      (occursP_subPair _ _ _ sfLU _
        (occursP_subPair _ _ _ sfLU _
          (occursP_subPair _ _ _ sfLU _
            (occursP_subPair _ _ _ sfLU _
              (subPair_no_self _ _ (by decide) (by decide) upper_not_lower T)))))
  have f2 : occursP [isAlphaA, isDigitA]
      (collapseSpaces (subPair isClausePunct isAlphaA
        (subPair isSentPunct isUpperA (subPair isDigitA isAlphaA
          (subPair isAlphaA isDigitA (subPair isLowerA isUpperA T)))))) = false :=
    occursP_collapseSpaces _ sfAD _
      (occursP_subPair _ _ _ sfAD _
        (occursP_subPair _ _ _ sfAD _
          (occursP_subPair _ _ _ sfAD _
            (subPair_no_self _ _ (by decide) (by decide) digit_not_alpha _))))
  have f3 : occursP [isDigitA, isAlphaA]
      (collapseSpaces (subPair isClausePunct isAlphaA
        (subPair isSentPunct isUpperA (subPair isDigitA isAlphaA
          (subPair isAlphaA isDigitA (subPair isLowerA isUpperA T)))))) = false :=
    occursP_collapseSpaces _ sfDA _
      (occursP_subPair _ _ _ sfDA _
        (occursP_subPair _ _ _ sfDA _
          (subPair_no_self _ _ (by decide) (by decide) alpha_not_digit _)))
  have f4 : occursP [isSentPunct, isUpperA]
      (collapseSpaces (subPair isClausePunct isAlphaA
        (subPair isSentPunct isUpperA (subPair isDigitA isAlphaA
          (subPair isAlphaA isDigitA (subPair isLowerA isUpperA T)))))) = false :=
    occursP_collapseSpaces _ sfSU _
      (occursP_subPair _ _ _ sfSU _
        (subPair_no_self _ _ (by decide) (by decide) upper_not_sent _))
  have f5 : occursP [isClausePunct, isAlphaA]
      (collapseSpaces (subPair isClausePunct isAlphaA
        (subPair isSentPunct isUpperA (subPair isDigitA isAlphaA
          (subPair isAlphaA isDigitA (subPair isLowerA isUpperA T)))))) = false :=
    occursP_collapseSpaces _ sfCA _
      (subPair_no_self _ _ (by decide) (by decide) alpha_not_clause _)
  have f6 : occursP [isSpaceChar, isSpaceChar]
      (collapseSpaces (subPair isClausePunct isAlphaA
        (subPair isSentPunct isUpperA (subPair isDigitA isAlphaA
          (subPair isAlphaA isDigitA (subPair isLowerA isUpperA T)))))) = false :=
    collapseSpaces_no_double _
  have f7 : ∀ pr ∈ commonMerges, occursP (ciOf pr.1)
      (collapseSpaces (subPair isClausePunct isAlphaA
        (subPair isSentPunct isUpperA (subPair isDigitA isAlphaA
          (subPair isAlphaA isDigitA (subPair isLowerA isUpperA T)))))) = false := by
    intro pr hpr
    exact occursP_collapseSpaces _ (commonMerges_space_free pr hpr) _
      (occursP_subPair _ _ _ (commonMerges_space_free pr hpr) _
        (occursP_subPair _ _ _ (commonMerges_space_free pr hpr) _ (htab3 pr hpr)))
  -- the second pass finds nothing to rewrite
  rw [hR, preprocessSpacing,
    subPair_eq_self isLowerA isUpperA _ f1,
    subPair_eq_self isAlphaA isDigitA _ f2,
    subPair_eq_self isDigitA isAlphaA _ f3,
    applyMerges_eq_self _ f7,
    subPair_eq_self isSentPunct isUpperA _ f4,
    subPair_eq_self isClausePunct isAlphaA _ f5,
    collapseSpaces_eq_self _ f6,
    dehyphenate_eq_self _ hHyR]

/-- C1 witness: "word. Another" satisfies both hypotheses and is a fixed
point of the normalizer after one application. -/
theorem c1_idempotent_witness :
    (∀ pr ∈ commonMerges, occursP (ciOf pr.1) "word. Another".data = false) ∧
    occursP hyphenPattern "word. Another".data = false ∧
    preprocessSpacing (preprocessSpacing "word. Another".data) =
      preprocessSpacing "word. Another".data :=
  ⟨by decide, by decide,
    c1_normalize_idempotent_of_no_table_no_hyphen "word. Another".data
      (by decide) (by decide)⟩

end PdfToDoc
